import Mathlib

/-!
Verification of the hypercube token-ring simulator (`hypercube.c`, `main.c`).

The development shallowly embeds the topology construction (`createPipes`,
the wiring loop of `createProcesses`), the per-worker token forwarding
(`passToken`, `setReadfds`), the coordinator's signal handling (`handler`,
`signal(SIGUSR1, handler)`), `waitChild`, `intToBinary` and the log-file
name construction, and proves or refutes the stated properties.
-/

namespace Hypercube

/-- One end of a pipe from the global table: `pipe` is the index into the
`pipes` array, and `isWrite` selects the write end `pipes[pipe][1]` over the
read end `pipes[pipe][0]`. -/
structure Endpoint where
  pipe : Nat
  isWrite : Bool
deriving DecidableEq

/-- Total number of pipes allocated by `createPipes`: `nbPipes = (1<<n) * n`. -/
def nbPipes (n : Nat) : Nat := (1 <<< n) * n

/-- Number of worker processes forked by `createProcesses`: `nbProcesses = 1<<n`. -/
def nbProcesses (n : Nat) : Nat := 1 <<< n

/-- The pipe table built by `createPipes`: `nbPipes n` freshly created pipes,
identified by their index in the table. -/
def createPipes (n : Nat) : List Nat := List.range (nbPipes n)

/-- Contents of the child-side `connectedPipes` array of vertex `v` after the
first `m` iterations of the wiring loop in `createProcesses`: iteration `j`
stores the read end of pipe `v*n + j` at slot `2j` (`pipes[i*n+j][0]`) and the
write end of pipe `(v ^ (1<<j))*n + j` at slot `2j+1`
(`pipes[neighbour*n+j][1]`). -/
def connectedPipesUpTo (v n : Nat) : Nat → List Endpoint
  | 0 => []
  | m + 1 => connectedPipesUpTo v n m ++
      [⟨v * n + m, false⟩, ⟨(v ^^^ (1 <<< m)) * n + m, true⟩]

/-- The full `connectedPipes` array of vertex `v` (all `n` wiring iterations). -/
def connectedPipes (v n : Nat) : List Endpoint := connectedPipesUpTo v n n

/-- The endpoint `passToken` reads from for dimension `i`: `connectedPipes[2*i]`
(used in `FD_ISSET(connectedPipes[2*i], ...)` and `read(connectedPipes[2*i], ...)`). -/
def recvEnd (v n i : Nat) : Option Endpoint := (connectedPipes v n)[2 * i]?

/-- The endpoint `passToken` writes to for dimension `i`:
`connectedPipes[2*i+1]` (used in `write(connectedPipes[2*pipe_index+1], ...)`). -/
def sendEnd (v n i : Nat) : Option Endpoint := (connectedPipes v n)[2 * i + 1]?

/-- The read ends retained by vertex `v` after partitioning. -/
def readEnds (v n : Nat) : List Endpoint :=
  (connectedPipes v n).filter (fun e => !e.isWrite)

/-- The write ends retained by vertex `v` after partitioning. -/
def writeEnds (v n : Nat) : List Endpoint :=
  (connectedPipes v n).filter (fun e => e.isWrite)

/-- The channel index the spec sentence of §4.1 (claim C1) assigns to vertex
`v`'s send end along edge `j`: `v*n + j`. -/
def specSendIdx (v n j : Nat) : Nat := v * n + j

/-- The channel index the spec sentence of §4.1 (claim C1) assigns to vertex
`v`'s receive end along edge `j`: `(v ^ (1<<j))*n + j`. -/
def specRecvIdx (v n j : Nat) : Nat := (v ^^^ (1 <<< j)) * n + j

lemma connectedPipesUpTo_length (v n m : Nat) :
    (connectedPipesUpTo v n m).length = 2 * m := by
  induction m with
  | zero => rfl
  | succ k ih =>
    simp only [connectedPipesUpTo, List.length_append, ih, List.length_cons,
      List.length_nil]
    omega

lemma connectedPipesUpTo_even (v n j : Nat) :
    ∀ m, j < m → (connectedPipesUpTo v n m)[2 * j]? = some ⟨v * n + j, false⟩ := by
  intro m
  induction m with
  | zero => omega
  | succ k ih =>
    intro h
    rcases Nat.lt_succ_iff_lt_or_eq.mp h with h' | h'
    · rw [connectedPipesUpTo, List.getElem?_append,
        if_pos (by rw [connectedPipesUpTo_length]; omega)]
      exact ih h'
    · subst h'
      rw [connectedPipesUpTo, List.getElem?_append,
        if_neg (by rw [connectedPipesUpTo_length]; omega),
        connectedPipesUpTo_length, Nat.sub_self]
      rfl

lemma connectedPipesUpTo_odd (v n j : Nat) :
    ∀ m, j < m →
      (connectedPipesUpTo v n m)[2 * j + 1]? = some ⟨(v ^^^ (1 <<< j)) * n + j, true⟩ := by
  intro m
  induction m with
  | zero => omega
  | succ k ih =>
    intro h
    rcases Nat.lt_succ_iff_lt_or_eq.mp h with h' | h'
    · rw [connectedPipesUpTo, List.getElem?_append,
        if_pos (by rw [connectedPipesUpTo_length]; omega)]
      exact ih h'
    · subst h'
      rw [connectedPipesUpTo, List.getElem?_append,
        if_neg (by rw [connectedPipesUpTo_length]; omega),
        connectedPipesUpTo_length]
      have hidx : 2 * j + 1 - 2 * j = 1 := by omega
      rw [hidx]
      rfl

/-- C1 (counterexample): at `n = 1`, `v = 0`, `j = 0` the endpoint `passToken`
reads from is the read end of the channel at index `v*n + j = 0` — the index
the spec's sentence assigns to the *send* end — and the endpoint it writes to
is the write end of the channel at index `neighbor*n + j = 1` — the index the
spec assigns to the *receive* end.  The two indices differ, so the claimed
assignment (send at `v*n+j`, receive at `neighbor*n+j`) is false on the code. -/
theorem C1_counterexample :
    recvEnd 0 1 0 = some ⟨specSendIdx 0 1 0, false⟩ ∧
    sendEnd 0 1 0 = some ⟨specRecvIdx 0 1 0, true⟩ ∧
    (recvEnd 0 1 0).map Endpoint.pipe ≠ some (specRecvIdx 0 1 0) ∧
    (sendEnd 0 1 0).map Endpoint.pipe ≠ some (specSendIdx 0 1 0) := by
  decide

/-- C1 (amended): for every vertex `v` and dimension `j < n`, the channel at
table index `v*n + j` is the one `v` uses to *receive* along edge `j` (the code
stores `pipes[i*n+j][0]` at `connectedPipes[2j]`, which `passToken` reads), and
the channel at index `(v ^ (1<<j))*n + j` is the one `v` uses to *send* (the
code stores `pipes[neighbour*n+j][1]` at `connectedPipes[2j+1]`, which
`passToken` writes) — the reverse of the roles claimed in the spec sentence. -/
theorem C1_amended_indexing (v n j : Nat) (h : j < n) :
    recvEnd v n j = some ⟨v * n + j, false⟩ ∧
    sendEnd v n j = some ⟨(v ^^^ (1 <<< j)) * n + j, true⟩ := by
  constructor
  · exact connectedPipesUpTo_even v n j n h
  · exact connectedPipesUpTo_odd v n j n h

/-- Witness for `C1_amended_indexing` at `v = 0`, `n = 1`, `j = 0`. -/
theorem C1_amended_indexing_witness :
    0 < 1 ∧
    (recvEnd 0 1 0 = some ⟨0 * 1 + 0, false⟩ ∧
     sendEnd 0 1 0 = some ⟨(0 ^^^ (1 <<< 0)) * 1 + 0, true⟩) :=
  ⟨by decide, C1_amended_indexing 0 1 0 (by decide)⟩

lemma filter_read_upTo (v n m : Nat) :
    (connectedPipesUpTo v n m).filter (fun e => !e.isWrite) =
      (List.range m).map (fun j => (⟨v * n + j, false⟩ : Endpoint)) := by
  induction m with
  | zero => rfl
  | succ k ih =>
    rw [connectedPipesUpTo, List.filter_append, ih, List.range_succ, List.map_append]
    rfl

lemma filter_write_upTo (v n m : Nat) :
    (connectedPipesUpTo v n m).filter (fun e => e.isWrite) =
      (List.range m).map (fun j => (⟨(v ^^^ (1 <<< j)) * n + j, true⟩ : Endpoint)) := by
  induction m with
  | zero => rfl
  | succ k ih =>
    rw [connectedPipesUpTo, List.filter_append, ih, List.range_succ, List.map_append]
    rfl

lemma readEnds_eq (v n : Nat) :
    readEnds v n = (List.range n).map (fun j => (⟨v * n + j, false⟩ : Endpoint)) :=
  filter_read_upTo v n n

lemma writeEnds_eq (v n : Nat) :
    writeEnds v n =
      (List.range n).map (fun j => (⟨(v ^^^ (1 <<< j)) * n + j, true⟩ : Endpoint)) :=
  filter_write_upTo v n n

lemma slot_div {n j : Nat} (hn : 0 < n) (hj : j < n) (v : Nat) :
    (v * n + j) / n = v := by
  rw [Nat.mul_comm v n, Nat.mul_add_div hn, Nat.div_eq_of_lt hj, Nat.add_zero]

lemma slot_mod {n j : Nat} (hj : j < n) (v : Nat) : (v * n + j) % n = j := by
  rw [Nat.mul_comm v n, Nat.mul_add_mod, Nat.mod_eq_of_lt hj]

lemma slot_inj {n j k v w : Nat} (hj : j < n) (hk : k < n)
    (h : v * n + j = w * n + k) : v = w ∧ j = k := by
  have hn : 0 < n := Nat.lt_of_le_of_lt (Nat.zero_le j) hj
  constructor
  · have h2 : (v * n + j) / n = (w * n + k) / n := by rw [h]
    rwa [slot_div hn hj, slot_div hn hk] at h2
  · have h2 : (v * n + j) % n = (w * n + k) % n := by rw [h]
    rwa [slot_mod hj, slot_mod hk] at h2

lemma xor_right_cancel {a b c : Nat} (h : a ^^^ c = b ^^^ c) : a = b := by
  have h2 : a ^^^ c ^^^ c = b ^^^ c ^^^ c := by rw [h]
  simpa [Nat.xor_assoc, Nat.xor_self, Nat.xor_zero] using h2

lemma xor_shift_ne (v k : Nat) : v ^^^ (1 <<< k) ≠ v := by
  intro h
  have h1 : 1 <<< k = 0 := by
    have h2 : v ^^^ (v ^^^ (1 <<< k)) = v ^^^ v := by rw [h]
    simpa [← Nat.xor_assoc, Nat.xor_self, Nat.zero_xor] using h2
  rw [Nat.one_shiftLeft] at h1
  exact Nat.pos_iff_ne_zero.mp (Nat.two_pow_pos k) h1

/-- C2: for every `n ≥ 1` the topology builder creates exactly `n * 2^n`
distinct channels, every vertex retains exactly `n` distinct read ends and `n`
distinct write ends, and two distinct vertices never hold the same read end or
the same write end. -/
theorem C2_topology_invariants (n : Nat) (hn : 1 ≤ n) :
    (createPipes n).length = n * 2 ^ n ∧
    (createPipes n).Nodup ∧
    (∀ v, (readEnds v n).length = n ∧ (writeEnds v n).length = n ∧
      (readEnds v n).Nodup ∧ (writeEnds v n).Nodup) ∧
    (∀ v w, v ≠ w →
      (∀ e ∈ readEnds v n, e ∉ readEnds w n) ∧
      (∀ e ∈ writeEnds v n, e ∉ writeEnds w n)) := by
  refine ⟨?_, ?_, ?_, ?_⟩
  · simp [createPipes, nbPipes, Nat.one_shiftLeft, Nat.mul_comm]
  · exact List.nodup_range _
  · intro v
    refine ⟨?_, ?_, ?_, ?_⟩
    · simp [readEnds_eq]
    · simp [writeEnds_eq]
    · rw [readEnds_eq]
      refine List.Nodup.map_on ?_ (List.nodup_range n)
      intro x hx y hy hmap
      have hx' := List.mem_range.mp hx
      have hy' := List.mem_range.mp hy
      have heq : v * n + x = v * n + y := congrArg Endpoint.pipe hmap
      exact (slot_inj hx' hy' heq).2
    · rw [writeEnds_eq]
      refine List.Nodup.map_on ?_ (List.nodup_range n)
      intro x hx y hy hmap
      have hx' := List.mem_range.mp hx
      have hy' := List.mem_range.mp hy
      have heq : (v ^^^ (1 <<< x)) * n + x = (v ^^^ (1 <<< y)) * n + y :=
        congrArg Endpoint.pipe hmap
      exact (slot_inj hx' hy' heq).2
  · intro v w hvw
    constructor
    · intro e hev hew
      rw [readEnds_eq] at hev hew
      obtain ⟨j, hj, rfl⟩ := List.mem_map.mp hev
      obtain ⟨k, hk, hke⟩ := List.mem_map.mp hew
      have hj' := List.mem_range.mp hj
      have hk' := List.mem_range.mp hk
      have heq : w * n + k = v * n + j := congrArg Endpoint.pipe hke
      exact hvw ((slot_inj hk' hj' heq).1.symm)
    · intro e hev hew
      rw [writeEnds_eq] at hev hew
      obtain ⟨j, hj, rfl⟩ := List.mem_map.mp hev
      obtain ⟨k, hk, hke⟩ := List.mem_map.mp hew
      have hj' := List.mem_range.mp hj
      have hk' := List.mem_range.mp hk
      have heq : (w ^^^ (1 <<< k)) * n + k = (v ^^^ (1 <<< j)) * n + j :=
        congrArg Endpoint.pipe hke
      obtain ⟨hvweq, hjk⟩ := slot_inj hk' hj' heq
      subst hjk
      exact hvw (xor_right_cancel hvweq.symm)

/-- Witness for `C2_topology_invariants` at `n = 1`. -/
theorem C2_topology_invariants_witness :
    1 ≤ 1 ∧
    ((createPipes 1).length = 1 * 2 ^ 1 ∧
     (createPipes 1).Nodup ∧
     (∀ v, (readEnds v 1).length = 1 ∧ (writeEnds v 1).length = 1 ∧
       (readEnds v 1).Nodup ∧ (writeEnds v 1).Nodup) ∧
     (∀ v w, v ≠ w →
       (∀ e ∈ readEnds v 1, e ∉ readEnds w 1) ∧
       (∀ e ∈ writeEnds v 1, e ∉ writeEnds w 1))) :=
  ⟨by decide, C2_topology_invariants 1 (by decide)⟩

/-- One pass of the drain loop in `passToken`
(`for i in 0..n: if FD_ISSET(connectedPipes[2*i]) then read(..., &token, ...)`):
`ready` holds, per dimension in loop order, `some x` when that read end is
ready with value `x` and `none` otherwise.  Each ready value overwrites the
`token` variable.  Returns the final `token` variable together with the list
of values read, in order. -/
def drainStep (token : Nat) : List (Option Nat) → Nat × List Nat
  | [] => (token, [])
  | none :: rest => drainStep token rest
  | some x :: rest =>
    let r := drainStep x rest
    (r.1, x :: r.2)

/-- The `token` variable after one full iteration of the forwarding loop:
drain every ready read end, then execute the single `token++`. -/
def iterationToken (token : Nat) (ready : List (Option Nat)) : Nat :=
  (drainStep token ready).1 + 1

lemma drainStep_reads (token : Nat) (ready : List (Option Nat)) :
    (drainStep token ready).2 = ready.filterMap id := by
  induction ready generalizing token with
  | nil => rfl
  | cons a rest ih =>
    cases a with
    | none => simpa [drainStep, List.filterMap_cons] using ih token
    | some x => simp [drainStep, List.filterMap_cons, ih x]

lemma drainStep_token (token : Nat) (ready : List (Option Nat)) :
    (drainStep token ready).1 = (ready.filterMap id).getLastD token := by
  induction ready generalizing token with
  | nil => rfl
  | cons a rest ih =>
    cases a with
    | none => simpa [drainStep, List.filterMap_cons] using ih token
    | some x =>
      have h1 : (drainStep token (some x :: rest)).1 = (drainStep x rest).1 := rfl
      have h2 : List.filterMap id (some x :: rest) = x :: List.filterMap id rest := by
        simp [List.filterMap_cons]
      rw [h1, h2, List.getLastD_cons, ih x]

/-- C3 (counterexample): a concrete iteration with two simultaneously ready
read ends, both carrying token value 5.  Both are drained in the same
iteration (two reads occur), yet the token counter afterwards is `6 = 5 + 1`:
the single `token++` sits after the drain loop, so the round applies exactly
one increment — the last value read wins and the other arrival is discarded —
never more than one increment per scheduling round as the claim states. -/
theorem C3_counterexample :
    (drainStep 0 [some 5, some 5]).2.length = 2 ∧
    iterationToken 0 [some 5, some 5] = 6 ∧
    iterationToken 0 [some 5, some 5] = 5 + 1 ∧
    iterationToken 0 [some 5, some 5] ≠ 5 + 2 := by
  decide

/-- C3 (amended): in one iteration of the forwarding loop, every
simultaneously ready read end is drained in that same iteration (the values
read are exactly the ready values, in loop order), and the token counter is
advanced by exactly one increment beyond the last value drained (or beyond the
old token variable if nothing was ready): multi-arrival never advances the
counter by more than one increment per scheduling round; the earlier arrivals
are overwritten and lost. -/
theorem C3_amended_drain (token : Nat) (ready : List (Option Nat)) :
    (drainStep token ready).2 = ready.filterMap id ∧
    iterationToken token ready = (ready.filterMap id).getLastD token + 1 := by
  exact ⟨drainStep_reads token ready, by
    rw [iterationToken, drainStep_token]⟩

/-- Single-token execution of the forwarding protocol over the hypercube of
dimension `n`.  The state is (destination vertex, in-flight token value): on
arrival the destination reads the value, executes `token++`, logs the
incremented value, and writes it along the randomly chosen dimension
(`pipe_index = rand() % n`) towards `dest ^ (1 << (r % n))`.  Exactly one
value is in flight at any time (vertex 0 seeds one token and every loop
iteration writes exactly once), so no iteration ever sees two ready read
ends: these executions have no simultaneous multi-arrival.  Returns the list
of arrival events `(vertex, logged value)`; `rs` is the stream of `rand()`
draws, one per forwarding step. -/
def tokenRun (n : Nat) : Nat → Nat → List Nat → List (Nat × Nat)
  | _, _, [] => []
  | dest, tok, r :: rs =>
    (dest, tok + 1) :: tokenRun n (dest ^^^ (1 <<< (r % n))) (tok + 1) rs

/-- Full event list of a run: vertex 0 seeds `token = 1`, logging value 1 as
its first line (`fprintf(file, "token: %d\n", token)`), and writes the token
along dimension `r0 % n`; afterwards the token is forwarded per `tokenRun`. -/
def runEvents (n r0 : Nat) (rs : List Nat) : List (Nat × Nat) :=
  (0, 1) :: tokenRun n (0 ^^^ (1 <<< (r0 % n))) 1 rs

/-- The token values recorded in worker `w`'s log, in order. -/
def workerLog (w : Nat) (events : List (Nat × Nat)) : List Nat :=
  (events.filter (fun e => e.1 == w)).map (fun e => e.2)

lemma workerLog_cons (w v t : Nat) (es : List (Nat × Nat)) :
    workerLog w ((v, t) :: es) =
      if v = w then t :: workerLog w es else workerLog w es := by
  by_cases h : v = w <;> simp [workerLog, List.filter_cons, h]

lemma tokenRun_log_chain (w n : Nat) :
    ∀ (rs : List Nat) (dest tok : Nat),
      List.Chain' (fun a b => a + 2 ≤ b) (workerLog w (tokenRun n dest tok rs)) ∧
      (∀ x ∈ (workerLog w (tokenRun n dest tok rs)).head?, tok + 1 ≤ x) ∧
      (dest ≠ w → ∀ x ∈ (workerLog w (tokenRun n dest tok rs)).head?, tok + 2 ≤ x) := by
  intro rs
  induction rs with
  | nil =>
    intro dest tok
    refine ⟨?_, ?_, ?_⟩ <;> simp [workerLog, tokenRun]
  | cons r rs ih =>
    intro dest tok
    have hne : dest ^^^ (1 <<< (r % n)) ≠ dest := xor_shift_ne dest (r % n)
    obtain ⟨ihc, ihh, ihh2⟩ := ih (dest ^^^ (1 <<< (r % n))) (tok + 1)
    rw [tokenRun, workerLog_cons]
    by_cases hw : dest = w
    · rw [if_pos hw]
      have hdw : dest ^^^ (1 <<< (r % n)) ≠ w := fun h => hne (by rw [h, hw])
      refine ⟨?_, ?_, ?_⟩
      · refine List.chain'_cons'.mpr ⟨?_, ihc⟩
        intro y hy
        exact ihh2 hdw y hy
      · intro x hx
        simp only [List.head?_cons, Option.mem_def, Option.some.injEq] at hx
        omega
      · intro hcontra
        exact absurd hw hcontra
    · rw [if_neg hw]
      refine ⟨ihc, ?_, ?_⟩
      · intro x hx
        have := ihh x hx
        omega
      · intro _ x hx
        exact ihh x hx

/-- C4 (counterexample): in the `n = 1` run with random draws `[0, 0]` — an
execution of the single-token protocol, hence with no simultaneous
multi-arrival anywhere — vertex 0's log is `[1, 3]`: the two consecutive
entries differ by 2, not by exactly 1 as the claim states (the token must
make at least two hops, out and back, between successive arrivals at the
same vertex). -/
theorem C4_counterexample :
    workerLog 0 (runEvents 1 0 [0, 0]) = [1, 3] ∧ (3 : Nat) ≠ 1 + 1 := by
  decide

/-- C4 (amended): within any single worker's log the recorded token values
are non-decreasing (first conjunct, as claimed), and consecutive entries of
the same worker differ by at least 2 — never by exactly 1 — because the token
is incremented once per hop and needs at least two hops to revisit a vertex
(second conjunct, replacing the claim's "strictly increasing by exactly 1"). -/
theorem C4_amended_log_monotone (n r0 w : Nat) (rs : List Nat) :
    List.Chain' (· ≤ ·) (workerLog w (runEvents n r0 rs)) ∧
    List.Chain' (fun a b => a + 2 ≤ b) (workerLog w (runEvents n r0 rs)) := by
  have hmain : List.Chain' (fun a b => a + 2 ≤ b) (workerLog w (runEvents n r0 rs)) := by
    rw [runEvents, workerLog_cons]
    obtain ⟨ihc, ihh, ihh2⟩ := tokenRun_log_chain w n rs (0 ^^^ (1 <<< (r0 % n))) 1
    by_cases hw : 0 = w
    · rw [if_pos hw]
      refine List.chain'_cons'.mpr ⟨?_, ihc⟩
      intro y hy
      have hne : (0 : Nat) ^^^ (1 <<< (r0 % n)) ≠ w := by
        rw [← hw, Nat.zero_xor, Nat.one_shiftLeft]
        exact Nat.pos_iff_ne_zero.mp (Nat.two_pow_pos _)
      exact ihh2 hne y hy
    · rw [if_neg hw]
      exact ihc
  refine ⟨hmain.imp ?_, hmain⟩
  intro a b h
  omega

/-- The signals that appear in the coordinator's control plane. -/
inductive Sig
  | sigusr1
  | sigint
  | sigstop
  | sigcont
deriving DecidableEq

/-- The set of signals for which `createProcesses` installs `handler`: the
only registration in the source is `signal(SIGUSR1, handler)`; no handler is
ever installed for `SIGINT`. -/
def installedSignals : List Sig := [Sig.sigusr1]

/-- The body of `handler(signum)`: given the current `n_sigusr1` flag and the
number of registered workers, returns the list of `(child index, signal)`
kills performed, in order, together with the new `n_sigusr1` flag.  On
`SIGUSR1` it broadcasts `SIGSTOP` when the flag is set and `SIGCONT`
otherwise, then flips the flag; on `SIGINT` it broadcasts `SIGINT` and leaves
the flag unchanged. -/
def handler (signum : Sig) (flag : Bool) (nb : Nat) : List (Nat × Sig) × Bool :=
  if signum = Sig.sigusr1 then
    (if flag then (List.range nb).map (fun i => (i, Sig.sigstop))
     else (List.range nb).map (fun i => (i, Sig.sigcont)), !flag)
  else if signum = Sig.sigint then
    ((List.range nb).map (fun i => (i, Sig.sigint)), flag)
  else
    ([], flag)

/-- Initial value of the global `n_sigusr1` flag (`volatile sig_atomic_t
n_sigusr1 = 1`). -/
def n_sigusr1_init : Bool := true

/-- The coordinator is paused exactly when the next toggle will resume, i.e.
when `n_sigusr1` is clear: initially `n_sigusr1 = 1` and the system runs
unpaused. -/
def pausedOf (flag : Bool) : Bool := !flag

/-- Delivering a signal to the coordinator: the handler runs only for signals
it was installed for; for any other signal the default disposition applies
and no signal is forwarded to any worker. -/
def deliver (s : Sig) (flag : Bool) (nb : Nat) : List (Nat × Sig) × Bool :=
  if s ∈ installedSignals then handler s flag nb else ([], flag)

/-- C5 (code bug): the source installs a handler only for `SIGUSR1`
(`signal(SIGUSR1, handler)` is the sole registration), so delivering the
terminate-all signal `SIGINT` to the coordinator triggers the default
disposition and forwards nothing to the workers — even though the body of
`handler` contains a `SIGINT` branch that would broadcast `SIGINT` to every
registered worker, which is unreachable because it is never registered. -/
theorem C5_sigint_not_installed :
    Sig.sigint ∉ installedSignals ∧
    (deliver Sig.sigint true 2).1 = [] ∧
    (handler Sig.sigint true 2).1 = [(0, Sig.sigint), (1, Sig.sigint)] := by
  decide

/-- C6: the toggle handler received while not paused broadcasts `SIGSTOP` to
every registered worker and sets the paused state, and the induced map on the
paused state is an involution: two consecutive toggles restore the original
paused state (for any starting flag and any worker count). -/
theorem C6_toggle_involution (nb : Nat) (flag : Bool)
    (h : pausedOf flag = false) :
    (handler Sig.sigusr1 flag nb).1 = (List.range nb).map (fun i => (i, Sig.sigstop)) ∧
    pausedOf (handler Sig.sigusr1 flag nb).2 = true ∧
    (∀ g : Bool, ∀ m : Nat,
      pausedOf (handler Sig.sigusr1 (handler Sig.sigusr1 g m).2 m).2 = pausedOf g) := by
  have hflag : flag = true := by
    cases flag
    · simp [pausedOf] at h
    · rfl
  subst hflag
  refine ⟨by simp [handler], by simp [handler, pausedOf], ?_⟩
  intro g m
  cases g <;> simp [handler, pausedOf]

/-- Witness for `C6_toggle_involution` at the initial coordinator state
(`n_sigusr1 = 1`, i.e. not paused) with two registered workers. -/
theorem C6_toggle_involution_witness :
    pausedOf n_sigusr1_init = false ∧
    ((handler Sig.sigusr1 n_sigusr1_init 2).1 =
        (List.range 2).map (fun i => (i, Sig.sigstop)) ∧
     pausedOf (handler Sig.sigusr1 n_sigusr1_init 2).2 = true ∧
     (∀ g : Bool, ∀ m : Nat,
       pausedOf (handler Sig.sigusr1 (handler Sig.sigusr1 g m).2 m).2 = pausedOf g)) :=
  ⟨by decide, C6_toggle_involution 2 n_sigusr1_init (by decide)⟩

/-- Outcome of one `waitpid(childs[i], &state, 0)` call: either child `i` was
reaped, or the call was interrupted by a signal-handler invocation and
returned early with `EINTR`. -/
inductive WaitOutcome
  | reaped
  | interrupted
deriving DecidableEq

/-- `waitChild` as written: one `waitpid` call per child, its return value
ignored, the loop advancing regardless.  `outcomes` gives what the single
call for each child returns; the result is the list of children actually
reaped when the loop completes (it always completes after `nb` calls — there
is no retry). -/
def waitChild (nb : Nat) (outcomes : List WaitOutcome) : List Nat :=
  (List.range nb).filter (fun i => outcomes.getD i WaitOutcome.interrupted == WaitOutcome.reaped)

/-- C7 (code bug): with two children, if the first `waitpid` call is
interrupted by a signal-handler invocation (returns `-1`/`EINTR`), `waitChild`
moves on to the second child and completes with child 0 never reaped: the
loop body ignores `waitpid`'s return value and never retries, contradicting
the requirement that the wait step retry/continue across signal deliveries so
that every worker is reaped before the coordinator proceeds. -/
theorem C7_waitchild_no_retry :
    waitChild 2 [WaitOutcome.interrupted, WaitOutcome.reaped] = [1] ∧
    0 ∉ waitChild 2 [WaitOutcome.interrupted, WaitOutcome.reaped] ∧
    waitChild 2 [WaitOutcome.reaped, WaitOutcome.reaped] = [0, 1] := by
  decide

/-- The first line worker `w` writes to its log file, rendered from the
source's format strings: vertex 0's first logged value is the seed, written
as `fprintf(file, "token: %d\n", token)`, while every other vertex still has
`start.tv_sec == 0` at its first reception and writes
`fprintf(file, "first received token: %d\n", token)`.  The line content is
given without the trailing newline; `none` when `w` never logs. -/
def firstLogLine (w : Nat) (events : List (Nat × Nat)) : Option String :=
  (workerLog w events).head?.map (fun t =>
    if w = 0 then "token: " ++ toString t else "first received token: " ++ toString t)

/-- C8 (counterexample): in the `n = 1` run, vertex 0's log starts with the
line `token: 1` — not `seed: 1` — and vertex 1's log starts with the line
`first received token: 2` — not `first received: 2`.  The seeded value 1 and
the incremented value 2 are as claimed, but neither literal line of the claim
occurs. -/
theorem C8_counterexample :
    firstLogLine 0 (runEvents 1 0 [0]) = some "token: 1" ∧
    firstLogLine 0 (runEvents 1 0 [0]) ≠ some "seed: 1" ∧
    firstLogLine 1 (runEvents 1 0 [0]) = some "first received token: 2" ∧
    firstLogLine 1 (runEvents 1 0 [0]) ≠ some "first received: 2" := by
  refine ⟨rfl, by decide, rfl, by decide⟩

/-- C8 (amended): in every `n = 1` run with at least one forwarding step,
vertex 0 seeds the token with value 1 and its log file starts with the line
`token: 1`, and vertex 1 receives the token, increments it to 2, and its log
file starts with the line `first received token: 2` (the source's literal
format strings, where the claim had `seed: 1` and `first received: 2`). -/
theorem C8_amended_first_lines (r0 : Nat) (rs : List Nat) (h : rs ≠ []) :
    firstLogLine 0 (runEvents 1 r0 rs) = some "token: 1" ∧
    firstLogLine 1 (runEvents 1 r0 rs) = some "first received token: 2" := by
  cases rs with
  | nil => exact absurd rfl h
  | cons r rs' =>
    have hmod : r0 % 1 = 0 := Nat.mod_one r0
    have hx : (0 : Nat) ^^^ (1 <<< 0) = 1 := by decide
    rw [runEvents, hmod, hx, tokenRun]
    constructor
    · rw [firstLogLine, workerLog_cons, if_pos rfl]
      rfl
    · rw [firstLogLine, workerLog_cons, if_neg (by decide), workerLog_cons, if_pos rfl]
      rfl

/-- Witness for `C8_amended_first_lines` with `r0 = 0`, `rs = [0]`. -/
theorem C8_amended_first_lines_witness :
    ([0] : List Nat) ≠ [] ∧
    (firstLogLine 0 (runEvents 1 0 [0]) = some "token: 1" ∧
     firstLogLine 1 (runEvents 1 0 [0]) = some "first received token: 2") :=
  ⟨by decide, C8_amended_first_lines 0 [0] (by decide)⟩

/-- `main`'s only validation of the command line is the `argc != 2` check;
the dimension `atoi(argv[1])` (0 for the input string "0") is forwarded to
`createPipes`/`createProcesses` with no lower-bound check. -/
def mainAccepts (argc : Nat) : Bool := argc == 2

/-- The neighbor choice `pipe_index = rand() % n`, with C's modulo-by-zero
undefined behaviour made explicit as a guarded error branch. -/
def chooseNeighbourIdx (r n : Nat) : Option Nat :=
  if n = 0 then none else some (r % n)

/-- The vertex-0 seeding step of `passToken` (the `id == 0` branch): sets
`token = 1` and picks `pipe_index = rand() % n`; returns the pair
`(token, pipe_index)`, hitting the error branch when the modulo is by zero. -/
def seedStep (n r : Nat) : Option (Nat × Nat) :=
  (chooseNeighbourIdx r n).map (fun j => (1, j))

/-- C9: the CLI accepts the dimension 0 (the only argument check is
`argc == 2`), and with `n = 0` vertex 0 reaches the seeding step and hits the
modulo-by-zero error branch of the neighbor choice, whatever `rand()`
returned; for every dimension `n + 1 ≥ 1` the seeding step succeeds. -/
theorem C9_mod_zero_reachable :
    mainAccepts 2 = true ∧
    (∀ r, seedStep 0 r = none) ∧
    (∀ r n, (seedStep (n + 1) r).isSome = true) := by
  refine ⟨rfl, fun r => rfl, fun r n => ?_⟩
  simp [seedStep, chooseNeighbourIdx]

/-- `intToBinary(num, n)`: the `n`-character binary string of `num`; the
loop stores the successive low bits of `num` from position `n-1` down to 0,
so position `i` holds bit `n-1-i`. -/
def intToBinary (num n : Nat) : String :=
  String.mk ((List.range n).map (fun i =>
    if (num >>> (n - 1 - i)) % 2 = 1 then '1' else '0'))

/-- Byte count allocated for the log filename:
`malloc(snprintf(NULL, 0, "%s/%s", dirName, binaryString) + 1)`, where
`dirName` is the decimal string of `n`. -/
def filenameAlloc (n v : Nat) : Nat :=
  (toString n ++ "/" ++ intToBinary v n).length + 1

/-- Byte count of the string actually stored by
`sprintf(filename, "%s/%s.txt", dirName, binaryString)`, including the
terminating NUL. -/
def filenameWritten (n v : Nat) : Nat :=
  (toString n ++ "/" ++ intToBinary v n ++ ".txt").length + 1

/-- C10: for every `n ≥ 1` and every vertex id `v`, the allocation measured
with the format `"%s/%s"` plus one is exactly 4 bytes smaller than the
NUL-terminated string written with the format `"%s/%s.txt"` (the `.txt`
suffix is missing from the measured size), so the allocation never covers
the written string. -/
theorem C10_filename_overflow (n v : Nat) (h : 1 ≤ n) :
    filenameWritten n v = filenameAlloc n v + 4 ∧
    filenameAlloc n v < filenameWritten n v := by
  have heq : filenameWritten n v = filenameAlloc n v + 4 := by
    rw [filenameWritten, filenameAlloc, String.length_append]
    have hlen : (".txt" : String).length = 4 := rfl
    rw [hlen]
  exact ⟨heq, by omega⟩

/-- Witness for `C10_filename_overflow` at `n = 1`, `v = 0`. -/
theorem C10_filename_overflow_witness :
    1 ≤ 1 ∧
    (filenameWritten 1 0 = filenameAlloc 1 0 + 4 ∧
     filenameAlloc 1 0 < filenameWritten 1 0) :=
  ⟨by decide, C10_filename_overflow 1 0 (by decide)⟩

end Hypercube
